import Mathlib

/-!
Verification of the commit-gen core against its specification.

This file gives a shallow embedding, in Lean 4, of the two core modules of
the `commit-gen` tool:

* `internal/git/diff.go` — the diff size governor: `GetStagedDiffWithLimit`,
  `summarizeDiff` and `truncateDiffSmart`.  Go strings are modelled as
  `List Char` (one `Char` per byte; every operation involved is byte-wise),
  and the Go standard library functions `strings.Index` / `strings.LastIndex`
  are embedded by structural recursion with their documented semantics.
  The external collaborators (`git diff --staged`, `--stat`, `--name-only`)
  are passed in as `Except`-valued parameters.

* `internal/cache/session_cache.go` — the session affinity cache:
  `Get`, `Set`, `UpdateLastUsed`, `Clear`, `Status`, `load` and `GetCache`.
  Wall-clock time is modelled as an `Int` parameter (`time.Since x > ttl`
  becomes `ttl < now - x`), the repository-identity resolver and the
  persistence layer as explicit parameters, and the md5 key derivation
  `hashRepoPath` as an uninterpreted deterministic function parameter
  (the claims under study never depend on the digest itself, only on the
  key being a function of the path).

Theorems named `C1_…` … `C10_…` settle the frozen claims.
-/

set_option maxHeartbeats 1000000
set_option maxRecDepth 100000

namespace CommitGen

/-- Go strings viewed as byte sequences (one `Char` per byte). -/
abbrev GoStr := List Char

/-- Shorthand: a Lean string literal as a `GoStr`. -/
def gs (s : String) : GoStr := s.toList

/-! ## Embedding of `strings.Index` / `strings.LastIndex`

`strings.Index(s, pat)` returns the index of the first occurrence of `pat`
inside `s`, or `-1` when there is none; `strings.LastIndex` the index of the
last occurrence.  We first compute the optional index as a `Nat`, then wrap
into the Go `int` convention. -/

/-- Index of the first occurrence of `pat` in the given list (`none` if absent). -/
def firstOccIdx (pat : GoStr) : GoStr → Option Nat
  | [] => if pat <+: ([] : GoStr) then some 0 else none
  | c :: t => if pat <+: (c :: t) then some 0 else (firstOccIdx pat t).map (· + 1)

/-- Index of the last occurrence of `pat` in the given list (`none` if absent). -/
def lastOccIdx (pat : GoStr) : GoStr → Option Nat
  | [] => if pat <+: ([] : GoStr) then some 0 else none
  | c :: t =>
    match lastOccIdx pat t with
    | some i => some (i + 1)
    | none => if pat <+: (c :: t) then some 0 else none

/-- Go `strings.Index`: first occurrence, `-1` when absent. -/
def strIndex (s pat : GoStr) : Int :=
  match firstOccIdx pat s with
  | some i => (i : Int)
  | none => -1

/-- Go `strings.LastIndex`: last occurrence, `-1` when absent. -/
def strLastIndex (s pat : GoStr) : Int :=
  match lastOccIdx pat s with
  | some i => (i : Int)
  | none => -1

/-! ## Embedding of `internal/git/diff.go` -/

/-- Constant `DefaultMaxDiffSize` — default maximum diff size in bytes before summarizing. -/
def DefaultMaxDiffSize : Int := 32 * 1024

/-- Result type `DiffResult` — the diff and metadata about whether it was summarized. -/
structure DiffResult where
  Diff : GoStr
  IsSummarized : Bool
  OriginalSize : Nat
  deriving DecidableEq, Repr

/-- Function `truncateDiffSmart` — truncates the diff at a sensible boundary.

Direct translation of the Go function.  `maxLen` is a Go `int`; a negative
value would make `diff[:maxLen]` panic in Go, so the embedding takes the
function's meaningful domain `maxLen : Nat` (all call sites pass a positive
value). -/
def truncateDiffSmart (diff : GoStr) (maxLen : Nat) : GoStr :=
  if diff.length ≤ maxLen then diff
  else
    let truncated := diff.take maxLen
    let lastHunk := strLastIndex truncated (gs "\n@@")
    if ((maxLen / 2 : Nat) : Int) < lastHunk then
      let hunkEnd := strIndex (truncated.drop (lastHunk.toNat + 1)) (gs "\n")
      if 0 < hunkEnd then truncated.take (lastHunk.toNat + 1 + hunkEnd.toNat)
      else truncated
    else
      let lastNewline := strLastIndex truncated (gs "\n")
      if 0 < lastNewline then truncated.take lastNewline.toNat
      else truncated

/-- The header part of `summarizeDiff`: everything the Go code writes to the
string builder before computing `remainingSpace` (summary banner, original
size, file count, the changed-file list, and the diff stat block).
The collaborator results `stat` (from `GetStagedDiffStat`) and `files` (from
`GetChangedFiles`) are parameters; a failed fetch is substituted by the
fixed placeholder exactly as in the Go code. -/
def summaryHeader (diff : GoStr) (stat : Except Unit GoStr)
    (files : Except Unit (List GoStr)) : GoStr :=
  let statText := match stat with
    | .ok s => s
    | .error _ => gs "(unable to get diff stat)"
  let fileList := match files with
    | .ok f => f
    | .error _ => [gs "(unable to get file list)"]
  gs "=== DIFF SUMMARY (original too large) ===\n\n"
    ++ gs "Original diff size: " ++ gs (Nat.repr diff.length) ++ gs " bytes\n"
    ++ gs "Files changed: " ++ gs (Nat.repr fileList.length) ++ gs "\n\n"
    ++ gs "=== CHANGED FILES ===\n"
    ++ (fileList.map (fun f => gs "  - " ++ f ++ gs "\n")).flatten
    ++ gs "\n"
    ++ gs "=== DIFF STAT ===\n" ++ statText ++ gs "\n"

/-- Function `summarizeDiff` — creates a condensed version of a large diff.

The Go function returns `(string, error)` but the error is always `nil`
(collaborator failures are masked with placeholder text), so the embedding
returns the string directly. -/
def summarizeDiff (diff : GoStr) (stat : Except Unit GoStr)
    (files : Except Unit (List GoStr)) (maxSize : Int) : GoStr :=
  let header := summaryHeader diff stat files
  let remainingSpace : Int := maxSize - (header.length : Int) - 200
  if 0 < remainingSpace then
    header ++ gs "=== TRUNCATED DIFF ===\n"
      ++ truncateDiffSmart diff remainingSpace.toNat
      ++ gs "\n\n... [truncated] ...\n"
  else header

/-- Function `GetStagedDiffWithLimit` — returns the diff, summarizing if it exceeds
`maxSize` bytes.  The raw-diff fetch (`GetStagedDiff`) is passed in as the
`Except`-valued parameter `diffRes`; its failure propagates. -/
def GetStagedDiffWithLimit (diffRes : Except Unit GoStr)
    (stat : Except Unit GoStr) (files : Except Unit (List GoStr))
    (maxSize : Int) : Except Unit DiffResult :=
  let maxSize := if maxSize ≤ 0 then DefaultMaxDiffSize else maxSize
  match diffRes with
  | .error e => .error e
  | .ok diff =>
    let originalSize := diff.length
    if (originalSize : Int) ≤ maxSize then
      .ok ⟨diff, false, originalSize⟩
    else
      .ok ⟨summarizeDiff diff stat files maxSize, true, originalSize⟩

/-! ## Characterization lemmas for the occurrence indices -/

theorem firstOccIdx_nil (pat : GoStr) :
    firstOccIdx pat [] = if pat <+: ([] : GoStr) then some 0 else none := rfl

theorem firstOccIdx_cons (pat : GoStr) (c : Char) (t : GoStr) :
    firstOccIdx pat (c :: t)
      = if pat <+: (c :: t) then some 0 else (firstOccIdx pat t).map (· + 1) := rfl

theorem lastOccIdx_nil (pat : GoStr) :
    lastOccIdx pat [] = if pat <+: ([] : GoStr) then some 0 else none := rfl

theorem lastOccIdx_cons (pat : GoStr) (c : Char) (t : GoStr) :
    lastOccIdx pat (c :: t)
      = match lastOccIdx pat t with
        | some i => some (i + 1)
        | none => if pat <+: (c :: t) then some 0 else none := rfl

theorem firstOccIdx_occ {pat s : GoStr} {i : Nat} (h : firstOccIdx pat s = some i) :
    pat <+: s.drop i := by
  induction s generalizing i with
  | nil =>
    rw [firstOccIdx_nil] at h
    by_cases hp : pat <+: ([] : GoStr)
    · rw [if_pos hp] at h
      obtain rfl : (0 : Nat) = i := Option.some.inj h
      simpa using hp
    · rw [if_neg hp] at h; cases h
  | cons c t ih =>
    rw [firstOccIdx_cons] at h
    by_cases hp : pat <+: (c :: t)
    · rw [if_pos hp] at h
      obtain rfl : (0 : Nat) = i := Option.some.inj h
      simpa using hp
    · rw [if_neg hp] at h
      rcases Option.map_eq_some'.mp h with ⟨j, hj, rfl⟩
      simpa using ih hj

theorem firstOccIdx_min {pat s : GoStr} {i : Nat} (h : firstOccIdx pat s = some i) :
    ∀ k, k < i → ¬ pat <+: s.drop k := by
  induction s generalizing i with
  | nil =>
    rw [firstOccIdx_nil] at h
    by_cases hp : pat <+: ([] : GoStr)
    · rw [if_pos hp] at h
      obtain rfl : (0 : Nat) = i := Option.some.inj h
      omega
    · rw [if_neg hp] at h; cases h
  | cons c t ih =>
    rw [firstOccIdx_cons] at h
    by_cases hp : pat <+: (c :: t)
    · rw [if_pos hp] at h
      obtain rfl : (0 : Nat) = i := Option.some.inj h
      omega
    · rw [if_neg hp] at h
      rcases Option.map_eq_some'.mp h with ⟨j, hj, rfl⟩
      intro k hk
      cases k with
      | zero => simpa using hp
      | succ k' => simpa using ih hj k' (by omega)

theorem firstOccIdx_none {pat s : GoStr} (h : firstOccIdx pat s = none) :
    ∀ k, ¬ pat <+: s.drop k := by
  induction s with
  | nil =>
    rw [firstOccIdx_nil] at h
    by_cases hp : pat <+: ([] : GoStr)
    · rw [if_pos hp] at h; cases h
    · intro k; simpa using hp
  | cons c t ih =>
    rw [firstOccIdx_cons] at h
    by_cases hp : pat <+: (c :: t)
    · rw [if_pos hp] at h; cases h
    · rw [if_neg hp, Option.map_eq_none'] at h
      intro k
      cases k with
      | zero => simpa using hp
      | succ k' => simpa using ih h k'

theorem firstOccIdx_eq_some {pat s : GoStr} {i : Nat}
    (hocc : pat <+: s.drop i) (hmin : ∀ k, k < i → ¬ pat <+: s.drop k) :
    firstOccIdx pat s = some i := by
  cases hfo : firstOccIdx pat s with
  | none => exact absurd hocc (firstOccIdx_none hfo i)
  | some j =>
    have h1 : ¬ j < i := fun hlt => hmin j hlt (firstOccIdx_occ hfo)
    have h2 : ¬ i < j := fun hlt => firstOccIdx_min hfo i hlt hocc
    have : i = j := by omega
    rw [this]

theorem lastOccIdx_occ {pat s : GoStr} {i : Nat} (h : lastOccIdx pat s = some i) :
    pat <+: s.drop i := by
  induction s generalizing i with
  | nil =>
    rw [lastOccIdx_nil] at h
    by_cases hp : pat <+: ([] : GoStr)
    · rw [if_pos hp] at h
      obtain rfl : (0 : Nat) = i := Option.some.inj h
      simpa using hp
    · rw [if_neg hp] at h; cases h
  | cons c t ih =>
    rw [lastOccIdx_cons] at h
    cases hlo : lastOccIdx pat t with
    | some j =>
      rw [hlo] at h
      obtain rfl : j + 1 = i := Option.some.inj h
      simpa using ih hlo
    | none =>
      rw [hlo] at h
      by_cases hp : pat <+: (c :: t)
      · rw [if_pos hp] at h
        obtain rfl : (0 : Nat) = i := Option.some.inj h
        simpa using hp
      · rw [if_neg hp] at h; cases h

theorem lastOccIdx_none {pat s : GoStr} (h : lastOccIdx pat s = none) :
    ∀ k, ¬ pat <+: s.drop k := by
  induction s with
  | nil =>
    rw [lastOccIdx_nil] at h
    by_cases hp : pat <+: ([] : GoStr)
    · rw [if_pos hp] at h; cases h
    · intro k; simpa using hp
  | cons c t ih =>
    rw [lastOccIdx_cons] at h
    cases hlo : lastOccIdx pat t with
    | some j => rw [hlo] at h; cases h
    | none =>
      rw [hlo] at h
      by_cases hp : pat <+: (c :: t)
      · rw [if_pos hp] at h; cases h
      · intro k
        cases k with
        | zero => simpa using hp
        | succ k' => simpa using ih hlo k'

theorem lastOccIdx_max {pat s : GoStr} {i : Nat} (hne : pat ≠ [])
    (h : lastOccIdx pat s = some i) : ∀ k, pat <+: s.drop k → k ≤ i := by
  induction s generalizing i with
  | nil =>
    intro k hk
    rw [List.drop_nil] at hk
    exact absurd (List.prefix_nil.mp hk) hne
  | cons c t ih =>
    rw [lastOccIdx_cons] at h
    cases hlo : lastOccIdx pat t with
    | some j =>
      rw [hlo] at h
      obtain rfl : j + 1 = i := Option.some.inj h
      intro k hk
      cases k with
      | zero => omega
      | succ k' =>
        have := ih hlo k' (by simpa using hk)
        omega
    | none =>
      rw [hlo] at h
      by_cases hp : pat <+: (c :: t)
      · rw [if_pos hp] at h
        obtain rfl : (0 : Nat) = i := Option.some.inj h
        intro k hk
        cases k with
        | zero => omega
        | succ k' => exact absurd (by simpa using hk) (lastOccIdx_none hlo k')
      · rw [if_neg hp] at h; cases h

theorem lastOccIdx_eq_some {pat s : GoStr} {i : Nat} (hne : pat ≠ [])
    (hocc : pat <+: s.drop i) (hmax : ∀ k, pat <+: s.drop k → k ≤ i) :
    lastOccIdx pat s = some i := by
  cases hlo : lastOccIdx pat s with
  | none => exact absurd hocc (lastOccIdx_none hlo i)
  | some j =>
    have h1 : j ≤ i := hmax j (lastOccIdx_occ hlo)
    have h2 : i ≤ j := lastOccIdx_max hne hlo i hocc
    have : i = j := by omega
    rw [this]

/-- A one-character pattern occurs at `i` exactly when the character sits at
index `i`. -/
theorem singleton_occ_iff {c : Char} {s : GoStr} {i : Nat} :
    [c] <+: s.drop i ↔ s[i]? = some c := by
  constructor
  · rintro ⟨t, ht⟩
    have : (s.drop i)[0]? = some c := by rw [← ht]; simp
    simpa [List.getElem?_drop] using this
  · intro h
    have hi : i < s.length := by
      by_contra hge
      rw [List.getElem?_eq_none (by omega)] at h
      cases h
    refine ⟨s.drop (i + 1), ?_⟩
    have h1 : s.drop i = s[i] :: s.drop (i + 1) :=
      List.drop_eq_getElem_cons hi
    have h2 : s[i] = c := by
      rw [List.getElem?_eq_getElem hi] at h
      exact Option.some.inj h
    rw [h1, h2]
    rfl

/-- An occurrence of a nonempty pattern lies strictly inside the list. -/
theorem occ_lt_length {pat s : GoStr} {i : Nat} (hne : pat ≠ [])
    (hocc : pat <+: s.drop i) : i < s.length := by
  have hlen : pat.length ≤ (s.drop i).length := hocc.length_le
  rw [List.length_drop] at hlen
  have : 0 < pat.length := List.length_pos.mpr hne
  omega

/-- Any `take` is a prefix. -/
theorem take_pre (n : Nat) (l : GoStr) : l.take n <+: l :=
  ⟨l.drop n, l.take_append_drop n⟩

/-- A prefix of the input that ends at the end of a complete line of the
input: it is empty, or it is the whole input, or it ends with a newline, or
the input byte immediately after it is a newline. -/
def endsAtLineEnd (s p : GoStr) : Prop :=
  p = [] ∨ p = s ∨ p.getLast? = some '\n' ∨ s[p.length]? = some '\n'

instance (s p : GoStr) : Decidable (endsAtLineEnd s p) := by
  unfold endsAtLineEnd; infer_instance

/-- Function `truncateDiffSmart` returns a prefix of its input; when the input is
longer than the limit, that prefix has length at most the limit. -/
theorem truncate_shape (diff : GoStr) (maxLen : Nat) :
    truncateDiffSmart diff maxLen <+: diff ∧
    (maxLen < diff.length → (truncateDiffSmart diff maxLen).length ≤ maxLen) := by
  by_cases hle : diff.length ≤ maxLen
  · rw [truncateDiffSmart, if_pos hle]
    exact ⟨List.prefix_rfl, fun h => by omega⟩
  · rw [truncateDiffSmart, if_neg hle]
    simp only
    constructor
    · split
      · split
        · exact (take_pre _ _).trans (take_pre _ _)
        · exact take_pre _ _
      · split
        · exact (take_pre _ _).trans (take_pre _ _)
        · exact take_pre _ _
    · intro _
      split
      · split
        · simp [List.length_take]
        · simp [List.length_take]
      · split
        · simp [List.length_take]
        · simp [List.length_take]

/-- Function `truncateDiffSmart` never returns more than `maxLen` bytes. -/
theorem truncate_length_le (diff : GoStr) (maxLen : Nat) :
    (truncateDiffSmart diff maxLen).length ≤ maxLen := by
  by_cases hle : diff.length ≤ maxLen
  · rw [truncateDiffSmart, if_pos hle]; exact hle
  · exact (truncate_shape diff maxLen).2 (by omega)

theorem gs_nl : gs "\n" = ['\n'] := rfl

theorem gs_hunk : gs "\n@@" = ['\n', '@', '@'] := rfl

/-- Membership at an index, transported out of a `take`-slice. -/
theorem getElem_of_slice {diff : GoStr} {maxLen m : Nat} {c : Char}
    (hm : m < maxLen) (h : (diff.take maxLen)[m]? = some c) : diff[m]? = some c := by
  rw [List.getElem?_take, if_pos hm] at h
  exact h

/-- An index carrying an element lies inside the list. -/
theorem lt_length_of_getElem {l : GoStr} {i : Nat} {c : Char}
    (h : l[i]? = some c) : i < l.length := by
  by_contra hge
  rw [List.getElem?_eq_none (by omega)] at h
  cases h

/-- Branch analysis of `truncateDiffSmart` on over-long input: the result is
either the raw `maxLen`-byte slice, or a strictly shorter prefix that stops
immediately before a newline of the input. -/
theorem truncate_result (diff : GoStr) (maxLen : Nat) (h : maxLen < diff.length) :
    truncateDiffSmart diff maxLen = diff.take maxLen ∨
    ∃ m, truncateDiffSmart diff maxLen = diff.take m ∧ m < maxLen ∧
      diff[m]? = some '\n' := by
  have hnle : ¬ diff.length ≤ maxLen := by omega
  have hslen : (diff.take maxLen).length = maxLen := by
    rw [List.length_take]; omega
  rw [truncateDiffSmart, if_neg hnle]
  simp only
  by_cases h1 : ((maxLen / 2 : Nat) : Int) < strLastIndex (diff.take maxLen) (gs "\n@@")
  · rw [if_pos h1]
    cases hlo : lastOccIdx (gs "\n@@") (diff.take maxLen) with
    | none =>
      have hv : strLastIndex (diff.take maxLen) (gs "\n@@") = -1 := by
        rw [strLastIndex, hlo]
      rw [hv] at h1
      omega
    | some i =>
      have hv : strLastIndex (diff.take maxLen) (gs "\n@@") = (i : Int) := by
        rw [strLastIndex, hlo]
      rw [hv]
      simp only [Int.toNat_natCast]
      by_cases h2 : (0 : Int) < strIndex ((diff.take maxLen).drop (i + 1)) (gs "\n")
      · rw [if_pos h2]
        cases hfo : firstOccIdx (gs "\n") ((diff.take maxLen).drop (i + 1)) with
        | none =>
          have hw : strIndex ((diff.take maxLen).drop (i + 1)) (gs "\n") = -1 := by
            rw [strIndex, hfo]
          rw [hw] at h2
          omega
        | some e =>
          have hw : strIndex ((diff.take maxLen).drop (i + 1)) (gs "\n") = (e : Int) := by
            rw [strIndex, hfo]
          rw [hw]
          simp only [Int.toNat_natCast]
          have hocc := firstOccIdx_occ hfo
          rw [gs_nl] at hocc
          have hsl : ((diff.take maxLen).drop (i + 1))[e]? = some '\n' :=
            singleton_occ_iff.mp hocc
          rw [List.getElem?_drop] at hsl
          have hm : i + 1 + e < maxLen := by
            have := lt_length_of_getElem hsl
            omega
          have hdm : diff[i + 1 + e]? = some '\n' := getElem_of_slice hm hsl
          refine Or.inr ⟨i + 1 + e, ?_, hm, hdm⟩
          rw [List.take_take, min_eq_left hm.le]
      · rw [if_neg h2]
        exact Or.inl rfl
  · rw [if_neg h1]
    by_cases h3 : (0 : Int) < strLastIndex (diff.take maxLen) (gs "\n")
    · rw [if_pos h3]
      cases hlo : lastOccIdx (gs "\n") (diff.take maxLen) with
      | none =>
        have hv : strLastIndex (diff.take maxLen) (gs "\n") = -1 := by
          rw [strLastIndex, hlo]
        rw [hv] at h3
        omega
      | some n =>
        have hv : strLastIndex (diff.take maxLen) (gs "\n") = (n : Int) := by
          rw [strLastIndex, hlo]
        rw [hv]
        simp only [Int.toNat_natCast]
        have hocc := lastOccIdx_occ hlo
        rw [gs_nl] at hocc
        have hsl : (diff.take maxLen)[n]? = some '\n' := singleton_occ_iff.mp hocc
        have hm : n < maxLen := by
          have := lt_length_of_getElem hsl
          omega
        have hdm : diff[n]? = some '\n' := getElem_of_slice hm hsl
        refine Or.inr ⟨n, ?_, hm, hdm⟩
        rw [List.take_take, min_eq_left hm.le]
    · rw [if_neg h3]
      exact Or.inl rfl

/-- C10: for every diff text and every byte limit, `truncateDiffSmart`
returns a prefix of its input (it never lengthens or reorders it), and when
the input is longer than the limit the returned prefix has byte length at
most the limit. -/
theorem C10_truncate_is_bounded_pre (diff : GoStr) (maxLen : Nat) :
    truncateDiffSmart diff maxLen <+: diff ∧
    (maxLen < diff.length → (truncateDiffSmart diff maxLen).length ≤ maxLen) :=
  truncate_shape diff maxLen

/-- Witness for C10 at a concrete input. -/
theorem C10_truncate_is_bounded_pre_witness :
    truncateDiffSmart (gs "abcdefghij") 5 <+: gs "abcdefghij" ∧
    (5 < (gs "abcdefghij").length →
      (truncateDiffSmart (gs "abcdefghij") 5).length ≤ 5) :=
  C10_truncate_is_bounded_pre (gs "abcdefghij") 5

/-- C3 (counterexample): the claim "the excerpt, when non-empty, always ends
at the end of a complete line of the input" is false: for the 10-byte input
`"abcdefghij"` (no newline at all) and limit 5 the function returns the raw
5-byte slice `"abcde"`, which is non-empty and stops in the middle of the
input's single line. -/
theorem C3_counterexample :
    truncateDiffSmart (gs "abcdefghij") 5 = gs "abcde" ∧
    ¬ endsAtLineEnd (gs "abcdefghij") (truncateDiffSmart (gs "abcdefghij") 5) := by
  constructor
  · decide
  · decide

/-- C3 (amended): when the input is longer than the limit and the function
actually cut below the limit (result strictly shorter than `maxLen`), the
excerpt ends at the end of a complete line of the input; in the remaining
case the function returns the raw `maxLen`-byte slice, which may stop
mid-line. -/
theorem C3_cut_ends_at_line_end (diff : GoStr) (maxLen : Nat)
    (h : maxLen < diff.length)
    (hshort : (truncateDiffSmart diff maxLen).length < maxLen) :
    endsAtLineEnd diff (truncateDiffSmart diff maxLen) := by
  rcases truncate_result diff maxLen h with heq | ⟨m, heq, hm, hnl⟩
  · rw [heq, List.length_take] at hshort
    omega
  · right; right; right
    rw [heq, List.length_take, min_eq_left (by omega : m ≤ diff.length)]
    exact hnl

/-- Witness for the amended C3 at a concrete input. -/
theorem C3_cut_ends_at_line_end_witness :
    5 < (gs "ab\ncdef").length ∧
    (truncateDiffSmart (gs "ab\ncdef") 5).length < 5 ∧
    endsAtLineEnd (gs "ab\ncdef") (truncateDiffSmart (gs "ab\ncdef") 5) :=
  ⟨by decide, by decide, C3_cut_ends_at_line_end (gs "ab\ncdef") 5 (by decide) (by decide)⟩

/-- A `"\n@@"` occurrence pins down the two bytes at its position. -/
theorem hunk_occ_at {s : GoStr} {i : Nat} (h : gs "\n@@" <+: s.drop i) :
    s[i]? = some '\n' ∧ s[i + 1]? = some '@' := by
  rw [gs_hunk] at h
  obtain ⟨t, ht⟩ := h
  have h0 : (s.drop i)[0]? = some '\n' := by rw [← ht]; simp
  have h1 : (s.drop i)[1]? = some '@' := by rw [← ht]; simp
  simp only [List.getElem?_drop] at h0 h1
  exact ⟨h0, h1⟩

/-- C4 (counterexample): for `diff = "aaaa\n@@xxxxx"` and limit 7, the 7-byte
slice `"aaaa\n@@"` contains a hunk marker line starting at index 5, past the
slice midpoint `7 / 2 = 3` (the `"\n@@"` occurrence sits at index 4); yet the
hunk header's line is cut by the slice end and extends to the end of the
input, and the function returns the raw 7-byte slice, which stops in the
middle of that header line rather than at its end. -/
theorem C4_counterexample :
    (gs "\n@@" <+: ((gs "aaaa\n@@xxxxx").take 7).drop 4) ∧
    7 / 2 < 5 ∧
    truncateDiffSmart (gs "aaaa\n@@xxxxx") 7 = (gs "aaaa\n@@xxxxx").take 7 ∧
    truncateDiffSmart (gs "aaaa\n@@xxxxx") 7 ≠ gs "aaaa\n@@xxxxx" ∧
    ¬ endsAtLineEnd (gs "aaaa\n@@xxxxx")
        (truncateDiffSmart (gs "aaaa\n@@xxxxx") 7) := by
  refine ⟨?_, ?_, ?_, ?_, ?_⟩ <;> decide

/-- C4 (amended): when the input is longer than the limit, the last `"\n@@"`
occurrence in the `maxLen`-byte slice sits at an index `i` past the slice's
midpoint `maxLen / 2`, and the slice still contains the newline (at index
`j`) that terminates that hunk header's line, `truncateDiffSmart` returns the
prefix of the input ending exactly at the end of that hunk header's line. -/
theorem C4_cut_at_last_hunk_header (diff : GoStr) (maxLen i j : Nat)
    (h : maxLen < diff.length)
    (hocc : gs "\n@@" <+: (diff.take maxLen).drop i)
    (hlast : ∀ k, k ≤ maxLen → gs "\n@@" <+: (diff.take maxLen).drop k → k ≤ i)
    (hmid : maxLen / 2 < i)
    (hj : i < j)
    (hjn : (diff.take maxLen)[j]? = some '\n')
    (hjfirst : ∀ k, k < j → i < k → (diff.take maxLen)[k]? ≠ some '\n') :
    truncateDiffSmart diff maxLen = diff.take j := by
  have hnle : ¬ diff.length ≤ maxLen := by omega
  have hslen : (diff.take maxLen).length = maxLen := by
    rw [List.length_take]; omega
  have hlast' : ∀ k, gs "\n@@" <+: (diff.take maxLen).drop k → k ≤ i := by
    intro k hk
    by_cases hkle : k ≤ maxLen
    · exact hlast k hkle hk
    · exfalso
      rw [List.drop_eq_nil_of_le (by omega)] at hk
      have := List.prefix_nil.mp hk
      simp [gs_hunk] at this
  have hlo : lastOccIdx (gs "\n@@") (diff.take maxLen) = some i :=
    lastOccIdx_eq_some (by decide) hocc hlast'
  have hv : strLastIndex (diff.take maxLen) (gs "\n@@") = (i : Int) := by
    rw [strLastIndex, hlo]
  have hjlen : j < maxLen := by
    have := lt_length_of_getElem hjn
    omega
  have hat : (diff.take maxLen)[i + 1]? = some '@' := (hunk_occ_at hocc).2
  have hij2 : i + 1 < j := by
    by_contra hge
    have hjeq : j = i + 1 := by omega
    rw [hjeq] at hjn
    have hc := hat.symm.trans hjn
    simp at hc
  have hfo : firstOccIdx (gs "\n") ((diff.take maxLen).drop (i + 1))
      = some (j - (i + 1)) := by
    apply firstOccIdx_eq_some
    · rw [gs_nl]
      apply singleton_occ_iff.mpr
      rw [List.getElem?_drop]
      have harith : i + 1 + (j - (i + 1)) = j := by omega
      rw [harith]
      exact hjn
    · intro k hk
      rw [gs_nl]
      intro hpre
      have hsl := singleton_occ_iff.mp hpre
      rw [List.getElem?_drop] at hsl
      exact hjfirst (i + 1 + k) (by omega) (by omega) hsl
  have hw : strIndex ((diff.take maxLen).drop (i + 1)) (gs "\n")
      = ((j - (i + 1) : Nat) : Int) := by
    rw [strIndex, hfo]
  rw [truncateDiffSmart, if_neg hnle]
  simp only
  rw [hv]
  simp only [Int.toNat_natCast]
  rw [if_pos (by exact_mod_cast hmid : ((maxLen / 2 : Nat) : Int) < (i : Int))]
  rw [hw]
  simp only [Int.toNat_natCast]
  rw [if_pos (by exact_mod_cast (by omega : 0 < j - (i + 1)) :
        (0 : Int) < ((j - (i + 1) : Nat) : Int))]
  have harith : i + 1 + (j - (i + 1)) = j := by omega
  rw [harith, List.take_take, min_eq_left hjlen.le]

/-- Witness for the amended C4 at a concrete input: the slice of
`"aaaaaaaa\n@@ x\nbbbb"` under limit 15 has its last `"\n@@"` at index 8,
past the midpoint 7, the header line ends at the newline at index 13, and
the function cuts exactly there. -/
theorem C4_cut_at_last_hunk_header_witness :
    15 < (gs "aaaaaaaa\n@@ x\nbbbb").length ∧
    truncateDiffSmart (gs "aaaaaaaa\n@@ x\nbbbb") 15
      = (gs "aaaaaaaa\n@@ x\nbbbb").take 13 :=
  ⟨by decide,
    C4_cut_at_last_hunk_header (gs "aaaaaaaa\n@@ x\nbbbb") 15 8 13
      (by decide) (by decide) (by decide) (by decide) (by decide)
      (by decide) (by decide)⟩

/-- C1: for every raw diff and every positive budget, `GetStagedDiffWithLimit`
returns the diff verbatim with `IsSummarized = false` when the diff fits the
budget; otherwise it returns a summary with `IsSummarized = true`; in both
cases `OriginalSize` is the exact byte length of the raw diff. -/
theorem C1_limit_governor_outcome (diff : GoStr) (stat : Except Unit GoStr)
    (files : Except Unit (List GoStr)) (maxSize : Int) (hpos : 0 < maxSize) :
    ((diff.length : Int) ≤ maxSize →
      GetStagedDiffWithLimit (.ok diff) stat files maxSize
        = .ok ⟨diff, false, diff.length⟩) ∧
    (maxSize < (diff.length : Int) →
      ∃ summary, GetStagedDiffWithLimit (.ok diff) stat files maxSize
        = .ok ⟨summary, true, diff.length⟩) := by
  rw [GetStagedDiffWithLimit]
  rw [if_neg (by omega : ¬ maxSize ≤ 0)]
  constructor
  · intro hle
    rw [if_pos hle]
  · intro hgt
    rw [if_neg (by omega : ¬ (diff.length : Int) ≤ maxSize)]
    exact ⟨_, rfl⟩

/-- Witness for C1: a 2-byte diff under budget 5 is returned verbatim, an
8-byte diff under budget 5 is summarized; both record the original size. -/
theorem C1_limit_governor_outcome_witness :
    GetStagedDiffWithLimit (.ok (gs "ab")) (.ok (gs "s")) (.ok []) 5
      = .ok ⟨gs "ab", false, (gs "ab").length⟩ ∧
    (∃ summary,
      GetStagedDiffWithLimit (.ok (gs "abcdefgh")) (.ok (gs "s")) (.ok []) 5
        = .ok ⟨summary, true, (gs "abcdefgh").length⟩) :=
  ⟨(C1_limit_governor_outcome (gs "ab") (.ok (gs "s")) (.ok []) 5
      (by decide)).1 (by decide),
   (C1_limit_governor_outcome (gs "abcdefgh") (.ok (gs "s")) (.ok []) 5
      (by decide)).2 (by decide)⟩

/-- C2 (counterexample): the claimed bound "summary length ≤ budget + ~200
bytes for all possible changed-file lists and statistics texts" fails: with a
2-byte diff over budget 1 and a 400-byte statistics text, the summary —
which embeds the statistics text wholesale in its header — is longer than
the budget plus 300 bytes (and grows without bound in the statistics text). -/
theorem C2_counterexample :
    GetStagedDiffWithLimit (.ok (gs "ab"))
        (.ok (List.replicate 400 'x')) (.ok []) 1
      = .ok ⟨summarizeDiff (gs "ab") (.ok (List.replicate 400 'x')) (.ok []) 1,
          true, 2⟩ ∧
    1 + 300
      < (summarizeDiff (gs "ab") (.ok (List.replicate 400 'x')) (.ok []) 1).length := by
  constructor
  · rfl
  · decide

/-- C2 (amended): when the summary header (file list and statistics included)
leaves positive remaining space under the budget — i.e. the truncated-diff
section is emitted — the summary's byte length is at most the budget (so in
particular within the claimed budget + 200 soft bound); otherwise the summary
is exactly the header, whose size grows with the file list and statistics
text and is not bounded by the budget. -/
theorem C2_summary_bounded_when_header_fits (diff : GoStr)
    (stat : Except Unit GoStr) (files : Except Unit (List GoStr)) (maxSize : Int) :
    (0 < maxSize - ((summaryHeader diff stat files).length : Int) - 200 →
      ((summarizeDiff diff stat files maxSize).length : Int) ≤ maxSize) ∧
    (maxSize - ((summaryHeader diff stat files).length : Int) - 200 ≤ 0 →
      summarizeDiff diff stat files maxSize = summaryHeader diff stat files) := by
  constructor
  · intro hrem
    rw [summarizeDiff]
    rw [if_pos hrem]
    simp only [List.length_append]
    have h1 : (gs "=== TRUNCATED DIFF ===\n").length = 23 := by decide
    have h2 : (gs "\n\n... [truncated] ...\n").length = 22 := by decide
    have h3 := truncate_length_le diff
      (maxSize - ((summaryHeader diff stat files).length : Int) - 200).toNat
    rw [h1, h2]
    push_cast
    omega
  · intro hrem
    rw [summarizeDiff]
    rw [if_neg (by omega)]

/-- Witness for the amended C2 at a concrete input with a large budget. -/
theorem C2_summary_bounded_when_header_fits_witness :
    (0 < (10000 : Int)
        - ((summaryHeader (gs "ab") (.ok (gs "st")) (.ok [])).length : Int) - 200) ∧
    ((summarizeDiff (gs "ab") (.ok (gs "st")) (.ok []) 10000).length : Int) ≤ 10000 :=
  ⟨by decide,
    (C2_summary_bounded_when_header_fits (gs "ab") (.ok (gs "st")) (.ok [])
      10000).1 (by decide)⟩

example : strIndex (gs "ab\ncd") (gs "\n") = 2 := by decide

/-! ## Embedding of `internal/cache/session_cache.go`

Time is an `Int` parameter (`time.Since x > ttl` is `ttl < now - x`), the
repository-identity resolver (`git.GetRepositoryRoot`) an `Except`-valued
parameter, the `save()` persistence outcome a `Bool` parameter, and the md5
key derivation `hashRepoPath` an uninterpreted deterministic function
parameter `hash`.  The Go `map[string]*CachedSession` is modelled as an
association list with key-replacing insertion; `UpdateLastUsed`'s map
iteration order is the list order.  Every operation returns the (possibly
updated) store so that read-only behaviour is a theorem, not a typing
artifact. -/

/-- Record `CachedSession` — one cache entry. -/
structure CachedSession where
  SessionID : String
  RepoPath : String
  CreatedAt : Int
  LastUsedAt : Int
  deriving DecidableEq, Repr

/-- Record `SessionCache` — the in-memory store (mapping, TTL, cache directory). -/
structure SessionCache where
  cache : List (String × CachedSession)
  ttl : Int
  cachedir : String
  deriving DecidableEq, Repr

/-- Go map lookup on the association-list model. -/
def mapLookup (k : String) : List (String × CachedSession) → Option CachedSession
  | [] => none
  | (k', v) :: t => if k' = k then some v else mapLookup k t

/-- Go map insertion (replace the entry for the key, or append it). -/
def mapInsert (k : String) (v : CachedSession) :
    List (String × CachedSession) → List (String × CachedSession)
  | [] => [(k, v)]
  | (k', v') :: t => if k' = k then (k, v) :: t else (k', v') :: mapInsert k v t

/-- Operation `Get` — resolves the repository identity, derives the key, and looks the
entry up; absent (`none`) when there is no entry or the entry's age exceeds
the TTL; an error exactly when identity resolution fails.  Runs under a read
lock and performs no mutation, so the returned store is the input store. -/
def SessionCache.get (hash : String → String) (sc : SessionCache)
    (repoRes : Except Unit String) (now : Int) :
    SessionCache × Except Unit (Option CachedSession) :=
  match repoRes with
  | .error e => (sc, .error e)
  | .ok repoPath =>
    let key := hash repoPath
    match mapLookup key sc.cache with
    | none => (sc, .ok none)
    | some session =>
      if sc.ttl < now - session.CreatedAt then (sc, .ok none)
      else (sc, .ok (some session))

/-- Error conditions of the mutating operations. -/
inductive CacheErr
  | gitErr
  | saveFailed
  | notFound
  deriving DecidableEq, Repr

/-- Operation `Set` — resolves identity, inserts/overwrites the entry with
`CreatedAt = LastUsedAt = now`, then persists (`saveOk` is the persistence
outcome; on failure the in-memory mutation is kept, as in the Go code). -/
def SessionCache.set (hash : String → String) (sc : SessionCache)
    (repoRes : Except Unit String) (saveOk : Bool) (sessionID : String)
    (now : Int) : SessionCache × Except CacheErr Unit :=
  match repoRes with
  | .error _ => (sc, .error .gitErr)
  | .ok repoPath =>
    let key := hash repoPath
    let sc' := { sc with cache := mapInsert key ⟨sessionID, repoPath, now, now⟩ sc.cache }
    (sc', if saveOk then .ok () else .error .saveFailed)

/-- Scan of `UpdateLastUsed`: update the first entry whose `SessionID`
matches, or report that none does. -/
def updateFirst (sessionID : String) (now : Int) :
    List (String × CachedSession) → Option (List (String × CachedSession))
  | [] => none
  | (k, s) :: t =>
    if s.SessionID = sessionID then some ((k, { s with LastUsedAt := now }) :: t)
    else (updateFirst sessionID now t).map ((k, s) :: ·)

/-- Operation `UpdateLastUsed` (the spec's `Touch`) — scans all entries for one whose
`SessionID` matches, refreshes its `LastUsedAt`, persists; error when no
entry matches.  The third component records whether `save` was invoked
(whether anything was persisted). -/
def SessionCache.updateLastUsed (sc : SessionCache) (saveOk : Bool)
    (sessionID : String) (now : Int) :
    SessionCache × Except CacheErr Unit × Bool :=
  match updateFirst sessionID now sc.cache with
  | some c =>
    ({ sc with cache := c }, if saveOk then .ok () else .error .saveFailed, true)
  | none => (sc, .error .notFound, false)

/-- Operation `Clear` — replaces the mapping with an empty one and persists. -/
def SessionCache.clear (sc : SessionCache) (saveOk : Bool) :
    SessionCache × Except CacheErr Unit :=
  ({ sc with cache := [] }, if saveOk then .ok () else .error .saveFailed)

/-- Operation `Status` — entry count and count of entries within TTL; runs under a
read lock and performs no mutation. -/
def SessionCache.status (sc : SessionCache) (now : Int) :
    SessionCache × Nat × Nat :=
  (sc, sc.cache.length,
    (sc.cache.filter (fun e => now - e.2.CreatedAt ≤ sc.ttl)).length)

/-- Outcome of reading the persistence file `sessions.json`: the file is
missing, unreadable for another reason, or readable with a JSON parse that
fails or yields a mapping. -/
inductive FileRead
  | missing
  | unreadable
  | content (parsed : Except Unit (List (String × CachedSession)))

/-- Operation `load` — reads the cache file into the store: a missing file leaves the
empty mapping and is not an error; an unreadable or unparseable file is an
error (and leaves the mapping untouched). -/
def SessionCache.load (sc : SessionCache) (file : FileRead) :
    SessionCache × Except Unit Unit :=
  match file with
  | .missing => (sc, .ok ())
  | .unreadable => (sc, .error ())
  | .content (.error e) => (sc, .error e)
  | .content (.ok m) => ({ sc with cache := m }, .ok ())

/-- Constructor `GetCache` — constructs the store: starts from an empty mapping, loads
the persistence file, and merely prints a warning if `load` fails, returning
the instance regardless.  The second component is the swallowed `load`
outcome (in Go it only feeds the warning print; callers receive the store
unconditionally). -/
def GetCache (ttl : Int) (cachedir : String) (file : FileRead) :
    SessionCache × Except Unit Unit :=
  SessionCache.load ⟨[], ttl, cachedir⟩ file

/-! ### Map lemmas -/

theorem mapLookup_mapInsert_self (k : String) (v : CachedSession)
    (m : List (String × CachedSession)) :
    mapLookup k (mapInsert k v m) = some v := by
  induction m with
  | nil => simp [mapInsert, mapLookup]
  | cons e t ih =>
    obtain ⟨k', v'⟩ := e
    by_cases hk : k' = k
    · simp [mapInsert, mapLookup, hk]
    · simp [mapInsert, mapLookup, hk, ih]

theorem updateFirst_eq_none {sessionID : String} {now : Int}
    {m : List (String × CachedSession)}
    (h : ∀ e ∈ m, e.2.SessionID ≠ sessionID) :
    updateFirst sessionID now m = none := by
  induction m with
  | nil => rfl
  | cons e t ih =>
    obtain ⟨k, s⟩ := e
    rw [updateFirst]
    rw [if_neg (h (k, s) (by simp))]
    rw [ih (fun e he => h e (by simp [he]))]
    rfl

example :
    (SessionCache.get id ⟨[("p", ⟨"s1", "p", 0, 0⟩)], 10, "d"⟩ (.ok "p") 5).2
      = .ok (some ⟨"s1", "p", 0, 0⟩) := rfl
example :
    (SessionCache.get id ⟨[("p", ⟨"s1", "p", 0, 0⟩)], 10, "d"⟩ (.ok "p") 11).2
      = .ok none := rfl
example : strIndex (gs "abcd") (gs "\n") = -1 := by decide
example : strLastIndex (gs "a\nb\nc") (gs "\n") = 3 := by decide
example : strLastIndex (gs "abc") (gs "") = 3 := by decide
example : truncateDiffSmart (gs "abcdefghij") 5 = gs "abcde" := by decide
example : truncateDiffSmart (gs "ab\ncdefgh") 5 = gs "ab" := by decide
example : truncateDiffSmart (gs "aaaa\n@@xxxxx") 7 = gs "aaaa\n@@" := by decide
example :
    truncateDiffSmart (gs "aaaa\n@@ h\nbbbbbbbb") 12 = gs "aaaa\n@@ h" := by
  decide

/-! ### Claims C5–C9 -/

/-- C5: `Get` returns absent (no error) both when no entry exists for the
repository's cache key and when the entry's age `now - CreatedAt` exceeds
the TTL, and it returns an error exactly when repository identity resolution
fails. -/
theorem C5_get_absent_or_error (hash : String → String) (sc : SessionCache)
    (repoRes : Except Unit String) (now : Int) :
    ((SessionCache.get hash sc repoRes now).2 = .error () ↔ repoRes = .error ()) ∧
    (∀ p, repoRes = .ok p →
      ((SessionCache.get hash sc repoRes now).2 = .ok none ↔
        mapLookup (hash p) sc.cache = none ∨
        ∃ s, mapLookup (hash p) sc.cache = some s ∧
          sc.ttl < now - s.CreatedAt)) := by
  constructor
  · cases repoRes with
    | error e => simp [SessionCache.get]
    | ok p =>
      simp only [SessionCache.get]
      cases hl : mapLookup (hash p) sc.cache with
      | none => simp
      | some s =>
        by_cases hexp : sc.ttl < now - s.CreatedAt
        · simp [hexp]
        · simp [hexp]
  · intro p hp
    subst hp
    simp only [SessionCache.get]
    cases hl : mapLookup (hash p) sc.cache with
    | none => simp
    | some s =>
      by_cases hexp : sc.ttl < now - s.CreatedAt
      · simp [hexp]
      · simp [hexp]

/-- Witness for C5: absent on an empty store, error on failed resolution. -/
theorem C5_get_absent_or_error_witness :
    (SessionCache.get id ⟨[], 5, "d"⟩ (.ok "p") 0).2 = .ok none ∧
    (SessionCache.get id ⟨[], 5, "d"⟩ (.error ()) 0).2 = .error () :=
  ⟨((C5_get_absent_or_error id ⟨[], 5, "d"⟩ (.ok "p") 0).2 "p" rfl).mpr
      (Or.inl rfl),
   (C5_get_absent_or_error id ⟨[], 5, "d"⟩ (.error ()) 0).1.mpr rfl⟩

/-- C6: after a successful `Set sessionID` at time `now`, a `Get` for the
same repository identity at any time `now'` within the TTL window returns the
cached record with that `SessionID` and with `CreatedAt` and `LastUsedAt`
both equal to the insertion time. -/
theorem C6_set_then_get (hash : String → String) (sc : SessionCache)
    (p sessionID : String) (now now' : Int)
    (hwin : now' - now ≤ sc.ttl) :
    (SessionCache.set hash sc (.ok p) true sessionID now).2 = .ok () ∧
    (SessionCache.get hash
        (SessionCache.set hash sc (.ok p) true sessionID now).1
        (.ok p) now').2
      = .ok (some ⟨sessionID, p, now, now⟩) := by
  constructor
  · rfl
  · simp only [SessionCache.set, SessionCache.get, mapLookup_mapInsert_self]
    rw [if_neg (by omega : ¬ sc.ttl < now' - now)]

/-- Witness for C6 at a concrete store, repository and times. -/
theorem C6_set_then_get_witness :
    ((3 : Int) - 0 ≤ (⟨[], 10, "d"⟩ : SessionCache).ttl) ∧
    (SessionCache.get id
        (SessionCache.set id ⟨[], 10, "d"⟩ (.ok "p") true "abc" 0).1
        (.ok "p") 3).2
      = .ok (some ⟨"abc", "p", 0, 0⟩) :=
  ⟨by decide,
    (C6_set_then_get id ⟨[], 10, "d"⟩ "p" "abc" 0 3 (by decide)).2⟩

/-- C7: `UpdateLastUsed` with a session ID matching no entry returns the
not-found error, leaves the in-memory mapping (indeed the whole store)
unchanged, and persists nothing. -/
theorem C7_touch_unknown_id (sc : SessionCache) (saveOk : Bool)
    (sessionID : String) (now : Int)
    (habs : ∀ e ∈ sc.cache, e.2.SessionID ≠ sessionID) :
    SessionCache.updateLastUsed sc saveOk sessionID now
      = (sc, .error .notFound, false) := by
  rw [SessionCache.updateLastUsed]
  rw [updateFirst_eq_none habs]

/-- Witness for C7: touching an unknown session ID on a one-entry store. -/
theorem C7_touch_unknown_id_witness :
    (∀ e ∈ ([("k", ⟨"s1", "p", 0, 0⟩)] :
        List (String × CachedSession)), e.2.SessionID ≠ "nope") ∧
    SessionCache.updateLastUsed ⟨[("k", ⟨"s1", "p", 0, 0⟩)], 10, "d"⟩ true "nope" 7
      = (⟨[("k", ⟨"s1", "p", 0, 0⟩)], 10, "d"⟩, .error .notFound, false) :=
  ⟨by decide,
    C7_touch_unknown_id ⟨[("k", ⟨"s1", "p", 0, 0⟩)], 10, "d"⟩ true "nope" 7
      (by decide)⟩

/-- C8 (counterexample): the claim "a malformed persistence file causes
construction to fail with a hard error rather than proceeding with an empty
store" is false: on a malformed file, `load` does report a parse error, but
`GetCache` swallows it (printing only a warning) and returns a fully
constructed store whose mapping is empty. -/
theorem C8_counterexample :
    (GetCache 100 "dir" (.content (.error ()))).1
      = (⟨[], 100, "dir"⟩ : SessionCache) ∧
    (GetCache 100 "dir" (.content (.error ()))).2 = .error () :=
  ⟨rfl, rfl⟩

/-- C8 (amended): at store construction, a missing persistence file yields an
empty mapping without error; a malformed (unparseable) or otherwise
unreadable file makes the internal `load` report an error, which construction
swallows — it warns and proceeds with an empty store instead of failing. -/
theorem C8_construction_swallows_load_error (ttl : Int) (dir : String) :
    GetCache ttl dir .missing = (⟨[], ttl, dir⟩, .ok ()) ∧
    (∀ e, GetCache ttl dir (.content (.error e)) = (⟨[], ttl, dir⟩, .error e)) ∧
    GetCache ttl dir .unreadable = (⟨[], ttl, dir⟩, .error ()) :=
  ⟨rfl, fun _ => rfl, rfl⟩

/-- A read operation: a `Get` (with its resolver outcome and time) or a
`Status` (with its time). -/
inductive ReadOp
  | get (repoRes : Except Unit String) (now : Int)
  | status (now : Int)

/-- Apply one read operation, keeping its resulting store. -/
def applyRead (hash : String → String) (sc : SessionCache) : ReadOp → SessionCache
  | .get repoRes now => (SessionCache.get hash sc repoRes now).1
  | .status now => (SessionCache.status sc now).1

/-- Apply a sequence of read operations. -/
def applyReads (hash : String → String) : SessionCache → List ReadOp → SessionCache
  | sc, [] => sc
  | sc, op :: ops => applyReads hash (applyRead hash sc op) ops

theorem get_fst (hash : String → String) (sc : SessionCache)
    (repoRes : Except Unit String) (now : Int) :
    (SessionCache.get hash sc repoRes now).1 = sc := by
  cases repoRes with
  | error e => rfl
  | ok p =>
    simp only [SessionCache.get]
    cases mapLookup (hash p) sc.cache with
    | none => rfl
    | some s =>
      by_cases hexp : sc.ttl < now - s.CreatedAt
      · simp [hexp]
      · simp [hexp]

theorem applyReads_id (hash : String → String) (sc : SessionCache)
    (ops : List ReadOp) : applyReads hash sc ops = sc := by
  induction ops generalizing sc with
  | nil => rfl
  | cons op ops ih =>
    rw [applyReads]
    cases op with
    | get repoRes now => rw [applyRead, get_fst, ih]
    | status now => rw [applyRead, SessionCache.status, ih]

/-- C9: the read operations `Get` and `Status` never mutate the mapping:
after any sequence of reads the store is unchanged, an entry whose age
exceeds the TTL is still present (not purged), `Status` still counts it in
`total`, and the `valid` filter excludes it. -/
theorem C9_reads_do_not_purge (hash : String → String) (sc : SessionCache)
    (ops : List ReadOp) (k : String) (s : CachedSession) (now : Int)
    (hmem : (k, s) ∈ sc.cache) (hexp : sc.ttl < now - s.CreatedAt) :
    applyReads hash sc ops = sc ∧
    (k, s) ∈ (applyReads hash sc ops).cache ∧
    (SessionCache.status (applyReads hash sc ops) now).2.1 = sc.cache.length ∧
    (SessionCache.status (applyReads hash sc ops) now).2.2
      = ((applyReads hash sc ops).cache.filter
          (fun e => now - e.2.CreatedAt ≤ sc.ttl)).length ∧
    (k, s) ∉ (applyReads hash sc ops).cache.filter
          (fun e => now - e.2.CreatedAt ≤ sc.ttl) := by
  have hid := applyReads_id hash sc ops
  refine ⟨hid, by rw [hid]; exact hmem, by rw [hid]; rfl, by rw [hid]; rfl, ?_⟩
  rw [hid]
  intro hmemf
  have := (List.mem_filter.mp hmemf).2
  simp only [decide_eq_true_eq] at this
  omega

/-- Witness for C9: a stale entry survives a `Get` followed by a `Status`. -/
theorem C9_reads_do_not_purge_witness :
    (("k", ⟨"s1", "p", 0, 0⟩) ∈
      (⟨[("k", ⟨"s1", "p", 0, 0⟩)], 10, "d"⟩ : SessionCache).cache) ∧
    ((⟨[("k", ⟨"s1", "p", 0, 0⟩)], 10, "d"⟩ : SessionCache).ttl < 20 - 0) ∧
    applyReads id ⟨[("k", ⟨"s1", "p", 0, 0⟩)], 10, "d"⟩
        [.get (.ok "p") 20, .status 20]
      = ⟨[("k", ⟨"s1", "p", 0, 0⟩)], 10, "d"⟩ :=
  ⟨by decide, by decide,
    (C9_reads_do_not_purge id ⟨[("k", ⟨"s1", "p", 0, 0⟩)], 10, "d"⟩
      [.get (.ok "p") 20, .status 20] "k" ⟨"s1", "p", 0, 0⟩ 20
      (by decide) (by decide)).1⟩

end CommitGen
